import Mathlib

/-!
Verification of the clipboard-manager core (my-memo-app).

The frontend JavaScript (saveBookmark, escapeHtml, tag parsing) is embedded
directly from the source files.  The Rust state-store backend is not part of
the available sources, so its operations (ingest, dedup/eviction, IP
extraction and merging, persistence load) are modelled from the
specification, as marked on each definition.
-/

/-- Events emitted to external listeners. -/
inductive AppEvent where
  | clipboardUpdated : AppEvent
  | ipDetected : String → AppEvent
deriving DecidableEq

/-- Modelled from the spec: the ClipboardItem record of the data model (§3);
the Rust definition is not among the sources. -/
structure ClipboardItem where
  id : Nat
  content : String
  content_type : String
  timestamp : Nat
  size : Nat
  access_count : Nat
  last_accessed : Option Nat
deriving DecidableEq

/-- Modelled from the spec: the BookmarkItem record of the data model (§3);
the Rust definition is not among the sources. -/
structure BookmarkItem where
  id : Nat
  name : String
  content : String
  content_type : String
  timestamp : Nat
  tags : List String
  access_count : Nat
  last_accessed : Option Nat
deriving DecidableEq

/-- Modelled from the spec: the IpHistoryItem record of the data model (§3);
the Rust definition is not among the sources. -/
structure IpHistoryItem where
  ip : String
  timestamp : Nat
  count : Nat
deriving DecidableEq

/-- Modelled from the spec: the Settings record of the data model (§3);
the Rust definition is not among the sources. -/
structure Settings where
  hotkey : String
  history_limit : Nat
  ip_limit : Nat
  auto_start : Bool
  show_notifications : Bool
deriving DecidableEq

/-- Modelled from the spec: AppData, the full persisted state (§3).  The
history list is kept most-recent-first. -/
structure AppData where
  version : String
  history : List ClipboardItem
  bookmarks : List BookmarkItem
  recent_ips : List IpHistoryItem
  settings : Settings
deriving DecidableEq

/-- Default settings: history limit 50, ip limit 10 (spec §3). -/
def defaultSettings : Settings :=
  { hotkey := "cmd+shift+v", history_limit := 50, ip_limit := 10,
    auto_start := true, show_notifications := false }

/-- A fresh empty AppData. -/
def emptyAppData : AppData :=
  { version := "1.0.0", history := [], bookmarks := [], recent_ips := [],
    settings := defaultSettings }

/-- Minimum of `key` over a list (0 on the empty list). -/
def minKey (key : α → Nat) : List α → Nat
  | [] => 0
  | [x] => key x
  | x :: y :: xs => Nat.min (key x) (minKey key (y :: xs))

/-- Remove the first element attaining the minimal key. -/
def removeFirstMin (key : α → Nat) (l : List α) : List α :=
  l.eraseP (fun x => key x == minKey key l)

/-- Recency of a history entry: its last access time, falling back to its
creation timestamp when never accessed (spec §4.2). -/
def recencyKey (i : ClipboardItem) : Nat := i.last_accessed.getD i.timestamp

/-- Refresh an existing entry on a duplicate ingest (spec §4.2). -/
def refreshItem (now : Nat) (i : ClipboardItem) : ClipboardItem :=
  { i with access_count := i.access_count + 1, last_accessed := some now }

/-- A new history entry for freshly ingested content. -/
def mkClipboardItem (now : Nat) (content : String) : ClipboardItem :=
  { id := now, content := content, content_type := "text", timestamp := now,
    size := content.length, access_count := 0, last_accessed := none }

/-- Modelled from the spec: the history half of State Store.ingest (§4.2).
Content identity is the content itself (an injective idealisation of the
content fingerprint).  A duplicate refreshes the matching entry and moves it
to the front; a fresh entry is pushed to the front, with the
least-recently-used existing entry evicted when the store is full. -/
def ingestHistory (now : Nat) (content : String) (d : AppData) : AppData :=
  match d.history.find? (fun i => i.content == content) with
  | some i =>
      { d with history :=
          refreshItem now i :: d.history.filter (fun j => !(j.content == content)) }
  | none =>
      let kept := if d.settings.history_limit ≤ d.history.length
                  then removeFirstMin recencyKey d.history
                  else d.history
      { d with history := mkClipboardItem now content :: kept }

/-- Characters that may appear in an IP candidate token. -/
def ipChar (c : Char) : Bool := c.isDigit || c == '.'

/-- Split a character list into runs of IP-candidate characters, breaking at
every other character. -/
def tokenize : List Char → List (List Char)
  | [] => [[]]
  | c :: rest =>
    let ts := tokenize rest
    if ipChar c then (c :: ts.headD []) :: ts.tail
    else [] :: ts

/-- Split a token at literal dots. -/
def splitDots : List Char → List (List Char)
  | [] => [[]]
  | c :: rest =>
    let gs := splitDots rest
    if c == '.' then [] :: gs
    else (c :: gs.headD []) :: gs.tail

/-- Numeric value of a digit group. -/
def digitsVal (g : List Char) : Nat :=
  g.foldl (fun n c => n * 10 + (c.toNat - 48)) 0

/-- Modelled from the spec: octet validation of the IP extractor (§4.3) —
one to three digits, value at most 255. -/
def isValidOctet (g : List Char) : Bool :=
  decide (1 ≤ g.length) && decide (g.length ≤ 3) &&
    g.all Char.isDigit && decide (digitsVal g ≤ 255)

/-- Modelled from the spec: a dotted-quad candidate is valid when it has
exactly four dot-separated digit groups, each value-validated to 0–255. -/
def isValidIp (t : List Char) : Bool :=
  let gs := splitDots t
  gs.length == 4 && gs.all isValidOctet

/-- Modelled from the spec: the IP extractor scan (§4.3); the Rust extractor
is not among the sources.  Every maximal digits-and-dots token that is a
valid dotted quad is reported, in order of occurrence. -/
def extractIps (text : String) : List String :=
  ((tokenize text.data).filter isValidIp).map String.mk

/-- Modelled from the spec: merging one extracted IP into recent_ips (§4.3).
An existing entry is refreshed in place (count incremented, timestamp set to
now); a fresh ip is appended, evicting the oldest-timestamp existing entry
when the collection is full, and emits the first-sight notification. -/
def mergeIp (now : Nat) (ip : String) (d : AppData) : AppData × List AppEvent :=
  if d.recent_ips.any (fun e => e.ip == ip) then
    ({ d with recent_ips := d.recent_ips.map (fun e =>
        if e.ip == ip then { e with count := e.count + 1, timestamp := now }
        else e) }, [])
  else
    let kept := if d.settings.ip_limit ≤ d.recent_ips.length
                then removeFirstMin IpHistoryItem.timestamp d.recent_ips
                else d.recent_ips
    ({ d with recent_ips := kept ++ [⟨ip, now, 1⟩] },
     [AppEvent.ipDetected ip])

/-- Modelled from the spec: each extracted address of one clipboard item is
processed independently, in order (§4.3). -/
def processIps (now : Nat) (ips : List String) (d : AppData) :
    AppData × List AppEvent :=
  match ips with
  | [] => (d, [])
  | ip :: rest =>
      let r1 := mergeIp now ip d
      let r2 := processIps now rest r1.1
      (r2.1, r1.2 ++ r2.2)

/-- Modelled from the spec: State Store.ingest (§2, §4.2, §4.3); the Rust
implementation is not among the sources. -/
def ingest (now : Nat) (content : String) (d : AppData) :
    AppData × List AppEvent :=
  let d1 := ingestHistory now content d
  let r := processIps now (extractIps content) d1
  (r.1, AppEvent.clipboardUpdated :: r.2)

/-- Modelled from the spec: the mutating operations of the command surface
(§6) that the invariants range over. -/
inductive Op where
  | opIngest (now : Nat) (content : String)
  | opAddBookmark (now : Nat) (name content : String) (tags : List String)
  | opUpdateBookmark (id : Nat) (name content : String) (tags : List String)
  | opDeleteBookmark (id : Nat)
  | opDeleteHistoryItem (id : Nat)
  | opClearHistory
  | opClearIpHistory
  | opUpdateSettings (s : Settings)
  | opIncrementAccess (now : Nat) (id : Nat)

/-- Modelled from the spec: effect of each mutating operation on AppData
(§4.4, §6); the Rust command handlers are not among the sources.  A settings
update re-trims both bounded collections so the §3 invariants keep holding. -/
def applyOp (op : Op) (d : AppData) : AppData :=
  match op with
  | .opIngest now c => (ingest now c d).1
  | .opAddBookmark now name content tags =>
      { d with bookmarks := d.bookmarks ++
          [{ id := now, name := name, content := content, content_type := "text",
             timestamp := now, tags := tags, access_count := 0,
             last_accessed := none }] }
  | .opUpdateBookmark id name content tags =>
      { d with bookmarks := d.bookmarks.map (fun b =>
          if b.id == id then { b with name := name, content := content, tags := tags }
          else b) }
  | .opDeleteBookmark id =>
      { d with bookmarks := d.bookmarks.filter (fun b => !(b.id == id)) }
  | .opDeleteHistoryItem id =>
      { d with history := d.history.filter (fun i => !(i.id == id)) }
  | .opClearHistory => { d with history := [] }
  | .opClearIpHistory => { d with recent_ips := [] }
  | .opUpdateSettings s =>
      { d with settings := s,
               history := d.history.take s.history_limit,
               recent_ips := d.recent_ips.take s.ip_limit }
  | .opIncrementAccess now id =>
      { d with history := d.history.map (fun i =>
          if i.id == id then
            { i with access_count := i.access_count + 1, last_accessed := some now }
          else i) }

/-- The capacity invariants of spec §3. -/
def CapacityInv (d : AppData) : Prop :=
  d.history.length ≤ d.settings.history_limit ∧
    d.recent_ips.length ≤ d.settings.ip_limit

instance (d : AppData) : Decidable (CapacityInv d) :=
  decidable_of_iff
    (d.history.length ≤ d.settings.history_limit ∧
      d.recent_ips.length ≤ d.settings.ip_limit) Iff.rfl

/-- No two history entries share their content (spec §3). -/
def NoDupContent (d : AppData) : Prop :=
  (d.history.map ClipboardItem.content).Nodup

instance (d : AppData) : Decidable (NoDupContent d) :=
  decidable_of_iff ((d.history.map ClipboardItem.content).Nodup) Iff.rfl

/-- No two recent_ips entries share their ip string (spec §3). -/
def NoDupIp (d : AppData) : Prop :=
  (d.recent_ips.map IpHistoryItem.ip).Nodup

instance (d : AppData) : Decidable (NoDupIp d) :=
  decidable_of_iff ((d.recent_ips.map IpHistoryItem.ip).Nodup) Iff.rfl

/-- Modelled from the spec: the observable parse outcome of an on-disk file
(§4.5); the Rust persistence engine is not among the sources. -/
inductive FileState where
  | missing
  | corrupt
  | valid (d : AppData)

/-- Modelled from the spec: parsing a file succeeds exactly on an intact
serialized AppData. -/
def parseFile : FileState → Option AppData
  | .valid d => some d
  | _ => none

/-- Modelled from the spec: the startup load path (§4.5) — primary first, then
backup, then a fresh empty AppData which is persisted immediately (the Bool
records that immediate persist). -/
def loadAppData (primary backup : FileState) : AppData × Bool :=
  match parseFile primary with
  | some d => (d, false)
  | none =>
      match parseFile backup with
      | some d => (d, false)
      | none => (emptyAppData, true)

/-- JavaScript whitespace as far as the trims in the frontend use it. -/
def jsWhitespace (c : Char) : Bool :=
  c == ' ' || c == '\t' || c == '\n' || c == '\r'

/-- Embedding of JavaScript String.prototype.trim on the character list. -/
def trimChars (cs : List Char) : List Char :=
  ((cs.dropWhile jsWhitespace).reverse.dropWhile jsWhitespace).reverse

/-- String-level trim. -/
def jsTrim (s : String) : String := String.mk (trimChars s.data)

/-- Split a character list at literal commas, keeping empty pieces, as
JavaScript String.prototype.split does. -/
def splitCommas : List Char → List (List Char)
  | [] => [[]]
  | c :: rest =>
    let gs := splitCommas rest
    if c == ',' then [] :: gs
    else (c :: gs.headD []) :: gs.tail

/-- Embedding of the tag computation of saveBookmark (main frontend):
value.split of commas, map trim, filter truthy. -/
def parseTags (s : String) : List String :=
  ((((splitCommas s.data).map trimChars).filter (fun t => !t.isEmpty)).map
    String.mk)

/-- Outcome of the frontend saveBookmark handler: either the rejection alert,
or the backend invocation it performs. -/
inductive SaveResult where
  | rejected (message : String)
  | invokeUpdate (id : Nat) (name content : String) (tags : List String)
  | invokeAdd (name content : String) (tags : List String)
deriving DecidableEq

/-- Embedding of the frontend saveBookmark handler: trims name and content,
parses tags, rejects when name or content trims to empty, otherwise invokes
update_bookmark (when editing) or add_bookmark. -/
def saveBookmark (editingBookmarkId : Option Nat)
    (nameField contentField tagsField : String) : SaveResult :=
  let name := jsTrim nameField
  let content := jsTrim contentField
  let tags := parseTags tagsField
  if name == "" || content == "" then
    SaveResult.rejected ("名前と内容は必須です")
  else
    match editingBookmarkId with
    | some id => SaveResult.invokeUpdate id name content tags
    | none => SaveResult.invokeAdd name content tags

/-- Effect of the saveBookmark outcome on the backing state: a rejection
invokes nothing and leaves the state untouched; the two invocations run the
corresponding backend operations. -/
def applySave (now : Nat) (r : SaveResult) (d : AppData) : AppData :=
  match r with
  | .rejected _ => d
  | .invokeAdd name content tags =>
      applyOp (Op.opAddBookmark now name content tags) d
  | .invokeUpdate id name content tags =>
      applyOp (Op.opUpdateBookmark id name content tags) d

/-- Replace every occurrence of a character by a replacement string, the
List-Char reading of text.replace with a global single-character pattern. -/
def replaceChar (c : Char) (r : List Char) : List Char → List Char
  | [] => []
  | x :: xs =>
      if x == c then r ++ replaceChar c r xs else x :: replaceChar c r xs

/-- The double-quote character. -/
def quoteChar : Char := Char.ofNat 34

/-- The single-quote character. -/
def aposChar : Char := Char.ofNat 39

/-- The entity &amp; as a character list. -/
def ampEnt : List Char := ['&', 'a', 'm', 'p', ';']

/-- The entity &lt; as a character list. -/
def ltEnt : List Char := ['&', 'l', 't', ';']

/-- The entity &gt; as a character list. -/
def gtEnt : List Char := ['&', 'g', 't', ';']

/-- The entity &quot; as a character list. -/
def quotEnt : List Char := ['&', 'q', 'u', 'o', 't', ';']

/-- The numeric entity of the single quote as a character list. -/
def aposEnt : List Char := ['&', '#', '3', '9', ';']

/-- Embedding of the five chained replace calls of escapeHtml
(small-window frontend), in source order: ampersand first, then the angle
brackets and both quote forms. -/
def escapeHtmlChars (cs : List Char) : List Char :=
  replaceChar aposChar aposEnt
    (replaceChar quoteChar quotEnt
      (replaceChar '>' gtEnt
        (replaceChar '<' ltEnt
          (replaceChar '&' ampEnt cs))))

/-- A JavaScript value as escapeHtml distinguishes them: a string, or any
non-string value. -/
inductive JsValue where
  | str (s : String)
  | num (n : Int)
  | boolean (b : Bool)
  | nullValue
  | undef
deriving DecidableEq

/-- Embedding of escapeHtml (small-window frontend): non-strings map to the
empty string, strings go through the five replacements. -/
def escapeHtml : JsValue → String
  | .str s => String.mk (escapeHtmlChars s.data)
  | _ => ""

/-- Per-character escape table; the chained replaces compute its
concatenation (proved below). -/
def escChar (c : Char) : List Char :=
  if c = '&' then ampEnt
  else if c = '<' then ltEnt
  else if c = '>' then gtEnt
  else if c = quoteChar then quotEnt
  else if c = aposChar then aposEnt
  else [c]

/-- Concatenation of the per-character escapes. -/
def escList : List Char → List Char
  | [] => []
  | c :: cs => escChar c ++ escList cs

/-- Decoder of the five HTML entities escapeHtml produces. -/
def unescapeHtml (l : List Char) : List Char :=
  match l with
  | [] => []
  | c :: cs =>
    if c = '&' then
      if ['a', 'm', 'p', ';'].isPrefixOf cs then '&' :: unescapeHtml (cs.drop 4)
      else if ['l', 't', ';'].isPrefixOf cs then '<' :: unescapeHtml (cs.drop 3)
      else if ['g', 't', ';'].isPrefixOf cs then '>' :: unescapeHtml (cs.drop 3)
      else if ['q', 'u', 'o', 't', ';'].isPrefixOf cs then
        quoteChar :: unescapeHtml (cs.drop 5)
      else if ['#', '3', '9', ';'].isPrefixOf cs then
        aposChar :: unescapeHtml (cs.drop 4)
      else c :: unescapeHtml cs
    else c :: unescapeHtml cs
termination_by l.length
decreasing_by all_goals simp [List.length_drop] <;> omega

/-- Checks that every ampersand starts one of the five entities. -/
def ampOk (l : List Char) : Bool :=
  match l with
  | [] => true
  | c :: cs =>
    if c = '&' then
      if ['a', 'm', 'p', ';'].isPrefixOf cs then ampOk (cs.drop 4)
      else if ['l', 't', ';'].isPrefixOf cs then ampOk (cs.drop 3)
      else if ['g', 't', ';'].isPrefixOf cs then ampOk (cs.drop 3)
      else if ['q', 'u', 'o', 't', ';'].isPrefixOf cs then ampOk (cs.drop 5)
      else if ['#', '3', '9', ';'].isPrefixOf cs then ampOk (cs.drop 4)
      else false
    else ampOk cs
termination_by l.length
decreasing_by all_goals simp [List.length_drop] <;> omega

/-- Checks that no raw angle bracket or quote character occurs. -/
def rawFree (cs : List Char) : Bool :=
  cs.all (fun c => !(c == '<' || c == '>' || c == quoteChar || c == aposChar))

/-- Checks that a character list neither starts nor ends with whitespace. -/
def noEdgeWs (cs : List Char) : Bool :=
  (cs.head?.all (fun c => !jsWhitespace c)) &&
    (cs.getLast?.all (fun c => !jsWhitespace c))

theorem minKey_le {k : α → Nat} :
    ∀ {l : List α} {x : α}, x ∈ l → minKey k l ≤ k x := by
  intro l
  induction l with
  | nil => intro x hx; cases hx
  | cons a t ih =>
      intro x hx
      cases t with
      | nil =>
          have hxa := List.mem_singleton.mp hx
          subst hxa
          simp [minKey]
      | cons y ys =>
          rcases List.mem_cons.mp hx with h | h
          · subst h; exact Nat.min_le_left _ _
          · exact Nat.le_trans (Nat.min_le_right _ _) (ih h)

theorem minKey_attained {k : α → Nat} :
    ∀ {l : List α}, l ≠ [] → ∃ x, x ∈ l ∧ k x = minKey k l := by
  intro l
  induction l with
  | nil => intro h; exact absurd rfl h
  | cons a t ih =>
      intro _
      cases t with
      | nil => exact ⟨a, List.mem_singleton_self a, rfl⟩
      | cons y ys =>
          rcases ih (List.cons_ne_nil y ys) with ⟨x, hx, hkx⟩
          rcases Nat.le_total (k a) (minKey k (y :: ys)) with hle | hle
          · refine ⟨a, List.mem_cons_self a _, ?_⟩
            exact (Nat.min_eq_left hle).symm
          · refine ⟨x, List.mem_cons_of_mem a hx, ?_⟩
            exact hkx.trans (Nat.min_eq_right hle).symm

theorem perm_cons_eraseP {p : α → Bool} {l : List α} {a : α}
    (ha : a ∈ l) (pa : p a = true) :
    ∃ e, e ∈ l ∧ p e = true ∧ List.Perm l (e :: l.eraseP p) := by
  rcases List.exists_of_eraseP ha pa with ⟨e, l₁, l₂, _, pe, hl, he⟩
  refine ⟨e, ?_, pe, ?_⟩
  · rw [hl]; exact List.mem_append_right l₁ (List.mem_cons_self e l₂)
  · rw [he, hl]; exact List.perm_middle

theorem removeFirstMin_spec {k : α → Nat} {l : List α} (h : l ≠ []) :
    ∃ e, e ∈ l ∧ (∀ x ∈ l, k e ≤ k x) ∧
      List.Perm l (e :: removeFirstMin k l) := by
  rcases minKey_attained h with ⟨x, hx, hkx⟩
  rcases perm_cons_eraseP (p := fun y => k y == minKey k l) hx
      (by simpa using hkx) with ⟨e, he, pe, hperm⟩
  refine ⟨e, he, ?_, hperm⟩
  intro z hz
  have : k e = minKey k l := by simpa using pe
  rw [this]; exact minKey_le hz

theorem removeFirstMin_length {k : α → Nat} {l : List α} (h : l ≠ []) :
    (removeFirstMin k l).length + 1 = l.length := by
  rcases removeFirstMin_spec (k := k) h with ⟨e, _, _, hperm⟩
  have := hperm.length_eq
  simpa [Nat.add_comm] using this.symm

theorem length_filter_not_lt {p : α → Bool} {l : List α}
    (h : ∃ x, x ∈ l ∧ p x = true) :
    (l.filter (fun y => !p y)).length < l.length := by
  induction l with
  | nil => rcases h with ⟨x, hx, _⟩; cases hx
  | cons a t ih =>
      by_cases hpa : p a = true
      · have : (List.filter (fun y => !p y) (a :: t)) =
            List.filter (fun y => !p y) t := by
          simp [List.filter, hpa]
        rw [this]
        exact Nat.lt_succ_of_le (List.length_filter_le _ t)
      · have hx : ∃ x, x ∈ t ∧ p x = true := by
          rcases h with ⟨x, hx, hpx⟩
          rcases List.mem_cons.mp hx with rfl | hxt
          · exact absurd hpx hpa
          · exact ⟨x, hxt, hpx⟩
        have : (List.filter (fun y => !p y) (a :: t)) =
            a :: List.filter (fun y => !p y) t := by
          simp [List.filter, hpa]
        rw [this]
        simpa using Nat.succ_lt_succ (ih hx)

theorem mergeIp_history (now : Nat) (ip : String) (d : AppData) :
    (mergeIp now ip d).1.history = d.history := by
  unfold mergeIp; split <;> rfl

theorem mergeIp_settings (now : Nat) (ip : String) (d : AppData) :
    (mergeIp now ip d).1.settings = d.settings := by
  unfold mergeIp; split <;> rfl

theorem processIps_history (now : Nat) :
    ∀ (ips : List String) (d : AppData),
      (processIps now ips d).1.history = d.history := by
  intro ips
  induction ips with
  | nil => intro d; rfl
  | cons ip rest ih =>
      intro d
      show (processIps now rest (mergeIp now ip d).1).1.history = d.history
      rw [ih, mergeIp_history]

theorem processIps_settings (now : Nat) :
    ∀ (ips : List String) (d : AppData),
      (processIps now ips d).1.settings = d.settings := by
  intro ips
  induction ips with
  | nil => intro d; rfl
  | cons ip rest ih =>
      intro d
      show (processIps now rest (mergeIp now ip d).1).1.settings = d.settings
      rw [ih, mergeIp_settings]

theorem ingestHistory_ips (now : Nat) (c : String) (d : AppData) :
    (ingestHistory now c d).recent_ips = d.recent_ips := by
  unfold ingestHistory; split <;> rfl

theorem ingestHistory_settings (now : Nat) (c : String) (d : AppData) :
    (ingestHistory now c d).settings = d.settings := by
  unfold ingestHistory; split <;> rfl

theorem ingestHistory_length_le (now : Nat) (c : String) (d : AppData)
    (hInv : d.history.length ≤ d.settings.history_limit)
    (hpos : 0 < d.settings.history_limit) :
    (ingestHistory now c d).history.length ≤ d.settings.history_limit := by
  unfold ingestHistory
  cases hfind : d.history.find? (fun i => i.content == c) with
  | some i =>
      have hp := List.find?_some hfind
      have hex : ∃ x, x ∈ d.history ∧ (x.content == c) = true :=
        ⟨i, List.mem_of_find?_eq_some hfind, by simpa using hp⟩
      have hlt := length_filter_not_lt hex
      simp only [List.length_cons]
      omega
  | none =>
      simp only [List.length_cons]
      by_cases hcap : d.settings.history_limit ≤ d.history.length
      · rw [if_pos hcap]
        have hne : d.history ≠ [] := by
          intro hnil
          rw [hnil] at hcap
          simp at hcap
          omega
        have := removeFirstMin_length (k := recencyKey) hne
        omega
      · rw [if_neg hcap]
        omega

theorem mergeIp_ips_le (now : Nat) (ip : String) (d : AppData)
    (hInv : d.recent_ips.length ≤ d.settings.ip_limit)
    (hpos : 0 < d.settings.ip_limit) :
    (mergeIp now ip d).1.recent_ips.length ≤ d.settings.ip_limit := by
  unfold mergeIp
  by_cases hany : d.recent_ips.any (fun e => e.ip == ip) = true
  · rw [if_pos hany]
    simpa using hInv
  · rw [if_neg hany]
    simp only [List.length_append, List.length_singleton]
    by_cases hcap : d.settings.ip_limit ≤ d.recent_ips.length
    · rw [if_pos hcap]
      have hne : d.recent_ips ≠ [] := by
        intro hnil
        rw [hnil] at hcap
        simp at hcap
        omega
      have := removeFirstMin_length (k := IpHistoryItem.timestamp) hne
      omega
    · rw [if_neg hcap]
      omega

theorem processIps_ips_le (now : Nat) :
    ∀ (ips : List String) (d : AppData),
      d.recent_ips.length ≤ d.settings.ip_limit →
      0 < d.settings.ip_limit →
      (processIps now ips d).1.recent_ips.length ≤
        (processIps now ips d).1.settings.ip_limit := by
  intro ips
  induction ips with
  | nil => intro d h _; exact h
  | cons ip rest ih =>
      intro d h hpos
      show (processIps now rest (mergeIp now ip d).1).1.recent_ips.length ≤
        (processIps now rest (mergeIp now ip d).1).1.settings.ip_limit
      apply ih
      · rw [mergeIp_settings]
        exact mergeIp_ips_le now ip d h hpos
      · rw [mergeIp_settings]
        exact hpos

theorem ingest_settings (now : Nat) (c : String) (d : AppData) :
    (ingest now c d).1.settings = d.settings := by
  show (processIps now (extractIps c) (ingestHistory now c d)).1.settings = _
  rw [processIps_settings, ingestHistory_settings]

theorem ingest_history_eq (now : Nat) (c : String) (d : AppData) :
    (ingest now c d).1.history = (ingestHistory now c d).history := by
  show (processIps now (extractIps c) (ingestHistory now c d)).1.history = _
  rw [processIps_history]

set_option maxRecDepth 100000 in
/-- C1: after every mutating operation applied to a state satisfying the
capacity invariants (with positive limits, as the settings form enforces),
the history length stays at most settings.history_limit and the recent_ips
length at most settings.ip_limit; the default limits are 50 and 10; and 60
sequential distinct ingests into the default empty store leave exactly the
last 50 contents, most recent first. -/
theorem C1_capacity_invariant (op : Op) (d : AppData)
    (hInv : CapacityInv d)
    (hH : 0 < d.settings.history_limit)
    (hI : 0 < d.settings.ip_limit) :
    CapacityInv (applyOp op d) ∧
      defaultSettings.history_limit = 50 ∧ defaultSettings.ip_limit = 10 ∧
      (((List.range 60).foldl (fun d i => (ingest i (toString i) d).1)
          emptyAppData).history.length = 50 ∧
        ((List.range 60).foldl (fun d i => (ingest i (toString i) d).1)
            emptyAppData).history.map ClipboardItem.content =
          (((List.range 60).drop 10).reverse.map toString)) := by
  refine ⟨?_, rfl, rfl, by decide, by decide⟩
  cases op with
  | opIngest now c =>
      constructor
      · show (ingest now c d).1.history.length ≤
          (ingest now c d).1.settings.history_limit
        rw [ingest_settings, ingest_history_eq]
        exact ingestHistory_length_le now c d hInv.1 hH
      · show (processIps now (extractIps c) (ingestHistory now c d)).1.recent_ips.length ≤
          (processIps now (extractIps c) (ingestHistory now c d)).1.settings.ip_limit
        apply processIps_ips_le
        · rw [ingestHistory_ips, ingestHistory_settings]; exact hInv.2
        · rw [ingestHistory_settings]; exact hI
  | opAddBookmark now name content tags => exact hInv
  | opUpdateBookmark id name content tags => exact hInv
  | opDeleteBookmark id => exact hInv
  | opDeleteHistoryItem id =>
      exact ⟨Nat.le_trans (List.length_filter_le _ _) hInv.1, hInv.2⟩
  | opClearHistory => exact ⟨Nat.zero_le _, hInv.2⟩
  | opClearIpHistory => exact ⟨hInv.1, Nat.zero_le _⟩
  | opUpdateSettings s =>
      constructor
      · show (d.history.take s.history_limit).length ≤ s.history_limit
        simp [List.length_take]
      · show (d.recent_ips.take s.ip_limit).length ≤ s.ip_limit
        simp [List.length_take]
  | opIncrementAccess now id =>
      constructor
      · show (d.history.map _).length ≤ d.settings.history_limit
        rw [List.length_map]; exact hInv.1
      · exact hInv.2

/-- Witness for C1 at a concrete operation and state. -/
theorem C1_capacity_invariant_witness :
    CapacityInv (applyOp (Op.opIngest 0 ("abc 10.0.0.1")) emptyAppData) ∧
      defaultSettings.history_limit = 50 ∧ defaultSettings.ip_limit = 10 ∧
      (((List.range 60).foldl (fun d i => (ingest i (toString i) d).1)
          emptyAppData).history.length = 50 ∧
        ((List.range 60).foldl (fun d i => (ingest i (toString i) d).1)
            emptyAppData).history.map ClipboardItem.content =
          (((List.range 60).drop 10).reverse.map toString)) :=
  C1_capacity_invariant (Op.opIngest 0 ("abc 10.0.0.1")) emptyAppData
    (by decide) (by decide) (by decide)

theorem length_filter_ne_of_nodup {f : α → String} :
    ∀ {l : List α}, (l.map f).Nodup →
      ∀ {x : α} {c : String}, x ∈ l → f x = c →
        (l.filter (fun j => !(f j == c))).length + 1 = l.length := by
  intro l
  induction l with
  | nil => intro _ x c hx; cases hx
  | cons a t ih =>
      intro hnd x c hx hfx
      have hnd2 : (f a :: t.map f).Nodup := by simpa using hnd
      have hnd' := List.nodup_cons.mp hnd2
      rcases List.mem_cons.mp hx with rfl | hxt
      · have hfa : (f x == c) = true := by simpa using hfx
        have h1 : List.filter (fun j => !(f j == c)) (x :: t) =
            List.filter (fun j => !(f j == c)) t := by
          rw [List.filter_cons]
          simp [hfa]
        have h2 : List.filter (fun j => !(f j == c)) t = t := by
          apply List.filter_eq_self.mpr
          intro b hb
          have hbne : f b ≠ c := by
            intro he
            apply hnd'.1
            rw [hfx, ← he]
            exact List.mem_map_of_mem f hb
          simpa using hbne
        rw [h1, h2]
        simp
      · have hfa : f a ≠ c := by
          intro he
          apply hnd'.1
          rw [he, ← hfx]
          exact List.mem_map_of_mem f hxt
        have hbeq : (f a == c) = false := by simpa using hfa
        have h1 : List.filter (fun j => !(f j == c)) (a :: t) =
            a :: List.filter (fun j => !(f j == c)) t := by
          rw [List.filter_cons]
          simp [hbeq]
        rw [h1]
        simp only [List.length_cons]
        rw [ih hnd'.2 hxt hfx]

theorem ingestHistory_refresh {now : Nat} {c : String} {d : AppData}
    {i : ClipboardItem}
    (hfind : d.history.find? (fun i => i.content == c) = some i) :
    (ingestHistory now c d).history =
      refreshItem now i :: d.history.filter (fun j => !(j.content == c)) := by
  unfold ingestHistory
  rw [hfind]

theorem ingestHistory_fresh {now : Nat} {c : String} {d : AppData}
    (hfind : d.history.find? (fun i => i.content == c) = none) :
    (ingestHistory now c d).history =
      mkClipboardItem now c ::
        (if d.settings.history_limit ≤ d.history.length
         then removeFirstMin recencyKey d.history
         else d.history) := by
  unfold ingestHistory
  rw [hfind]

theorem ingest_cons (now : Nat) (c : String) (d : AppData) :
    ∃ j t, (ingest now c d).1.history = j :: t ∧ j.content = c := by
  rw [ingest_history_eq]
  cases hfind : d.history.find? (fun i => i.content == c) with
  | some i =>
      refine ⟨refreshItem now i, _, ingestHistory_refresh hfind, ?_⟩
      have := List.find?_some hfind
      simpa [refreshItem] using this
  | none =>
      exact ⟨mkClipboardItem now c, _, ingestHistory_fresh hfind, rfl⟩

theorem ingest_nodupContent (now : Nat) (c : String) (d : AppData)
    (hnd : NoDupContent d) : NoDupContent (ingest now c d).1 := by
  show ((ingest now c d).1.history.map ClipboardItem.content).Nodup
  rw [ingest_history_eq]
  cases hfind : d.history.find? (fun i => i.content == c) with
  | some i =>
      rw [ingestHistory_refresh hfind]
      have hsub : (d.history.filter (fun j => !(j.content == c))).Sublist d.history :=
        List.filter_sublist d.history
      have hndf : ((d.history.filter (fun j => !(j.content == c))).map
          ClipboardItem.content).Nodup :=
        (hsub.map ClipboardItem.content).nodup hnd
      have hic : i.content = c := by simpa using List.find?_some hfind
      simp only [List.map_cons, List.nodup_cons]
      refine ⟨?_, hndf⟩
      intro hmem
      rcases List.mem_map.mp hmem with ⟨b, hb, hbc⟩
      have := List.of_mem_filter hb
      have hbne : b.content ≠ c := by simpa using this
      exact hbne (by rw [hbc]; simpa [refreshItem] using hic)
  | none =>
      rw [ingestHistory_fresh hfind]
      have hall : ∀ x ∈ d.history, x.content ≠ c := by
        intro x hx
        have := List.find?_eq_none.mp hfind x hx
        simpa using this
      have hsub : (if d.settings.history_limit ≤ d.history.length
          then removeFirstMin recencyKey d.history
          else d.history).Sublist d.history := by
        split
        · exact List.eraseP_sublist d.history
        · exact List.Sublist.refl d.history
      have hndk := (hsub.map ClipboardItem.content).nodup hnd
      simp only [List.map_cons, List.nodup_cons]
      refine ⟨?_, hndk⟩
      intro hmem
      rcases List.mem_map.mp hmem with ⟨b, hb, hbc⟩
      exact hall b (hsub.subset hb) (by simpa [mkClipboardItem] using hbc)

/-- C2: on a state without duplicate contents (the spec §3 invariant),
ingesting content that already has a matching history entry keeps the history
length unchanged, refreshes that entry (access_count incremented,
last_accessed set to now) and moves it to the most-recent position; and
ingesting the same content twice in a row leaves the second length equal to
the first, with the front entry's access_count at least 1. -/
theorem C2_dedup_refresh (d : AppData) (now now2 : Nat) (c : String)
    (hnd : NoDupContent d) :
    ((∃ i, i ∈ d.history ∧ i.content = c) →
        (ingest now c d).1.history.length = d.history.length ∧
        ∃ i, i ∈ d.history ∧ i.content = c ∧
          (ingest now c d).1.history.head? = some (refreshItem now i) ∧
          (refreshItem now i).access_count = i.access_count + 1 ∧
          (refreshItem now i).last_accessed = some now)
    ∧ ((ingest now2 c (ingest now c d).1).1.history.length =
          (ingest now c d).1.history.length ∧
        ∃ j, (ingest now2 c (ingest now c d).1).1.history.head? = some j ∧
          j.content = c ∧ 1 ≤ j.access_count) := by
  constructor
  · rintro ⟨i, hi, hic⟩
    cases hfind : d.history.find? (fun x => x.content == c) with
    | none =>
        exfalso
        have := List.find?_eq_none.mp hfind i hi
        simp [hic] at this
    | some i₀ =>
        have hmem := List.mem_of_find?_eq_some hfind
        have hc₀ : i₀.content = c := by simpa using List.find?_some hfind
        refine ⟨?_, i₀, hmem, hc₀, ?_, rfl, rfl⟩
        · rw [ingest_history_eq, ingestHistory_refresh hfind]
          simp only [List.length_cons]
          exact length_filter_ne_of_nodup hnd hmem hc₀
        · rw [ingest_history_eq, ingestHistory_refresh hfind]
          rfl
  · obtain ⟨j, t, hcons, hjc⟩ := ingest_cons now c d
    have hnd1 := ingest_nodupContent now c d hnd
    have hbeq : (j.content == c) = true := by simpa using hjc
    have hfind1 : (ingest now c d).1.history.find? (fun x => x.content == c) =
        some j := by
      rw [hcons]
      exact List.find?_cons_of_pos _ hbeq
    have hmem1 : j ∈ (ingest now c d).1.history := by
      rw [hcons]; exact List.mem_cons_self _ _
    constructor
    · rw [ingest_history_eq, ingestHistory_refresh hfind1]
      simp only [List.length_cons]
      exact length_filter_ne_of_nodup hnd1 hmem1 hjc
    · refine ⟨refreshItem now2 j, ?_, ?_, ?_⟩
      · rw [ingest_history_eq, ingestHistory_refresh hfind1]
        rfl
      · simpa [refreshItem] using hjc
      · simp [refreshItem]

/-- Witness for C2 at a concrete state holding the ingested content. -/
theorem C2_dedup_refresh_witness :
    ((ingest 1 ("abc") ((ingest 0 ("abc") emptyAppData).1)).1.history.length =
        (ingest 0 ("abc") emptyAppData).1.history.length) ∧
    ((ingest 2 ("abc") ((ingest 1 ("abc")
        ((ingest 0 ("abc") emptyAppData).1)).1)).1.history.length =
      (ingest 1 ("abc") ((ingest 0 ("abc") emptyAppData).1)).1.history.length) := by
  have h := C2_dedup_refresh ((ingest 0 ("abc") emptyAppData).1) 1 2 ("abc")
    (by decide)
  exact ⟨(h.1 ⟨mkClipboardItem 0 ("abc"), by decide, by decide⟩).1, h.2.1⟩

/-- A store configured with history_limit 3, as in the capacity test. -/
def demoApp3 : AppData :=
  { emptyAppData with settings := { defaultSettings with history_limit := 3 } }

/-- The demo store after ingesting A, B, C at times 0, 1, 2. -/
def c3Demo : AppData :=
  (ingest 2 ("C") ((ingest 1 ("B") ((ingest 0 ("A") demoApp3).1)).1)).1

/-- C3: ingesting fresh content into a full store keeps the length at the
limit, puts the new entry in front, and removes exactly one entry of minimal
recency (oldest last_accessed, falling back to the creation timestamp when
never accessed); and concretely, with history_limit 3, ingesting A, B, C, D
in order leaves exactly D, C, B (A evicted). -/
theorem C3_lru_eviction :
    (∀ (d : AppData) (now : Nat) (c : String),
      (∀ i ∈ d.history, i.content ≠ c) →
      d.history.length = d.settings.history_limit →
      0 < d.settings.history_limit →
      ∃ e, e ∈ d.history ∧
        (∀ x ∈ d.history, recencyKey e ≤ recencyKey x) ∧
        List.Perm d.history (e :: ((ingest now c d).1.history.tail)) ∧
        (ingest now c d).1.history.head? = some (mkClipboardItem now c) ∧
        (ingest now c d).1.history.length = d.settings.history_limit)
    ∧ ((ingest 3 ("D") c3Demo).1.history.map ClipboardItem.content =
          [("D"), ("C"), ("B")] ∧
        (ingest 3 ("D") c3Demo).1.history.length = 3) := by
  constructor
  · intro d now c hfresh hfull hpos
    have hfind : d.history.find? (fun i => i.content == c) = none := by
      apply List.find?_eq_none.mpr
      intro x hx
      simpa using hfresh x hx
    have hcap : d.settings.history_limit ≤ d.history.length :=
      Nat.le_of_eq hfull.symm
    have hne : d.history ≠ [] := by
      intro h0
      rw [h0] at hfull
      simp at hfull
      omega
    obtain ⟨e, hmem, hmin, hperm⟩ := removeFirstMin_spec (k := recencyKey) hne
    have hh : (ingest now c d).1.history =
        mkClipboardItem now c :: removeFirstMin recencyKey d.history := by
      rw [ingest_history_eq, ingestHistory_fresh hfind, if_pos hcap]
    refine ⟨e, hmem, hmin, ?_, ?_, ?_⟩
    · rw [hh]
      simpa using hperm
    · rw [hh]
      rfl
    · rw [hh]
      simp only [List.length_cons]
      have := removeFirstMin_length (k := recencyKey) hne
      omega
  · exact ⟨by decide, by decide⟩

/-- Witness for C3's general eviction statement at the concrete full store. -/
theorem C3_lru_eviction_witness :
    ∃ e, e ∈ c3Demo.history ∧
      (∀ x ∈ c3Demo.history, recencyKey e ≤ recencyKey x) ∧
      List.Perm c3Demo.history (e :: ((ingest 3 ("D") c3Demo).1.history.tail)) ∧
      (ingest 3 ("D") c3Demo).1.history.head? =
        some (mkClipboardItem 3 ("D")) ∧
      (ingest 3 ("D") c3Demo).1.history.length =
        c3Demo.settings.history_limit :=
  C3_lru_eviction.1 c3Demo 3 ("D") (by decide) (by decide) (by decide)

/-- Rejoin dot-separated groups with literal dots. -/
def joinDots : List (List Char) → List Char
  | [] => []
  | [g] => g
  | g :: g2 :: gs => g ++ '.' :: joinDots (g2 :: gs)

theorem splitDots_ne_nil : ∀ (t : List Char), splitDots t ≠ [] := by
  intro t
  cases t with
  | nil => simp [splitDots]
  | cons c rest =>
      show (if c == '.' then [] :: splitDots rest
            else (c :: (splitDots rest).headD []) :: (splitDots rest).tail) ≠ []
      split <;> simp

theorem joinDots_splitDots : ∀ (t : List Char), joinDots (splitDots t) = t := by
  intro t
  induction t with
  | nil => rfl
  | cons c rest ih =>
      show joinDots (if c == '.' then [] :: splitDots rest
           else (c :: (splitDots rest).headD []) :: (splitDots rest).tail) = c :: rest
      rcases hgs : splitDots rest with _ | ⟨g, gs⟩
      · exact absurd hgs (splitDots_ne_nil rest)
      · rw [hgs] at ih
        by_cases hc : (c == '.') = true
        · rw [if_pos hc]
          have hceq : c = '.' := by simpa using hc
          subst hceq
          cases gs with
          | nil => simpa [joinDots] using ih
          | cons g2 gs' => simpa [joinDots] using ih
        · rw [if_neg hc]
          cases gs with
          | nil =>
              simp only [List.headD, List.tail]
              show joinDots [c :: g] = c :: rest
              simp only [joinDots]
              rw [show joinDots [g] = g from rfl] at ih
              rw [ih]
          | cons g2 gs' =>
              simp only [List.headD, List.tail]
              show joinDots ((c :: g) :: g2 :: gs') = c :: rest
              show (c :: g) ++ '.' :: joinDots (g2 :: gs') = c :: rest
              have hj : g ++ '.' :: joinDots (g2 :: gs') = rest := ih
              simpa using hj

/-- The spec's octet requirement: a nonempty group of at most three digits
whose value is at most 255. -/
def okOctet (g : List Char) : Prop :=
  g ≠ [] ∧ g.length ≤ 3 ∧ (∀ ch ∈ g, ch.isDigit = true) ∧ digitsVal g ≤ 255

/-- The spec's dotted-quad shape: four dot-separated digit groups, each
value-validated to the 0–255 range. -/
def ValidQuad (s : String) : Prop :=
  ∃ g1 g2 g3 g4,
    s.data = g1 ++ '.' :: (g2 ++ '.' :: (g3 ++ '.' :: g4)) ∧
    okOctet g1 ∧ okOctet g2 ∧ okOctet g3 ∧ okOctet g4

theorem isValidOctet_okOctet {g : List Char} (h : isValidOctet g = true) :
    okOctet g := by
  have h' := h
  simp only [isValidOctet, Bool.and_eq_true, decide_eq_true_eq] at h'
  refine ⟨?_, h'.1.1.2, ?_, h'.2⟩
  · have : 0 < g.length := h'.1.1.1
    exact List.ne_nil_of_length_pos this
  · exact List.all_eq_true.mp h'.1.2

theorem valid_token_quad {t : List Char} (h : isValidIp t = true) :
    ValidQuad (String.mk t) := by
  simp only [isValidIp, Bool.and_eq_true, beq_iff_eq] at h
  obtain ⟨hlen, hall⟩ := h
  have hjoin := joinDots_splitDots t
  rcases hgs : splitDots t with _ | ⟨g1, _ | ⟨g2, _ | ⟨g3, _ | ⟨g4, _ | ⟨g5, gs⟩⟩⟩⟩⟩ <;>
    rw [hgs] at hlen <;> simp at hlen
  rw [hgs] at hjoin hall
  refine ⟨g1, g2, g3, g4, ?_, ?_, ?_, ?_, ?_⟩
  · show t = g1 ++ '.' :: (g2 ++ '.' :: (g3 ++ '.' :: g4))
    rw [← hjoin]
    simp [joinDots]
  all_goals {
    simp only [List.all_eq_true] at hall
    apply isValidOctet_okOctet
    apply hall
    simp
  }

/-- C4: every address the extractor reports is a syntactically valid dotted
quad with each octet value in 0–255; and the text
"999.999.999.999 and 10.0.0.1" ingested into an empty store records exactly
one recent_ips entry, "10.0.0.1" (the out-of-range candidate is rejected). -/
theorem C4_ip_validation :
    (∀ (text ip : String), ip ∈ extractIps text → ValidQuad ip) ∧
    ((ingest 0 ("999.999.999.999 and 10.0.0.1") emptyAppData).1.recent_ips.map
        IpHistoryItem.ip = [("10.0.0.1")] ∧
      (ingest 0 ("999.999.999.999 and 10.0.0.1")
          emptyAppData).1.recent_ips.length = 1) := by
  refine ⟨?_, by decide, by decide⟩
  intro text ip hip
  rcases List.mem_map.mp hip with ⟨t, ht, rfl⟩
  exact valid_token_quad (List.of_mem_filter ht)

/-- Witness for C4's general validity statement at a concrete extraction. -/
theorem C4_ip_validation_witness : ValidQuad ("10.0.0.1") :=
  C4_ip_validation.1 ("999.999.999.999 and 10.0.0.1") ("10.0.0.1") (by decide)


theorem mergeIp_existing {now : Nat} {ip : String} {d : AppData}
    (h : ∃ e, e ∈ d.recent_ips ∧ e.ip = ip) :
    (mergeIp now ip d).1.recent_ips = d.recent_ips.map (fun e =>
        if e.ip == ip then { e with count := e.count + 1, timestamp := now }
        else e) ∧
      (mergeIp now ip d).2 = [] := by
  have hany : d.recent_ips.any (fun e => e.ip == ip) = true := by
    rcases h with ⟨e, he, hip⟩
    exact List.any_eq_true.mpr ⟨e, he, by simpa using hip⟩
  unfold mergeIp
  rw [if_pos hany]
  exact ⟨rfl, rfl⟩

theorem mergeIp_fresh {now : Nat} {ip : String} {d : AppData}
    (h : ¬ ∃ e, e ∈ d.recent_ips ∧ e.ip = ip) :
    (mergeIp now ip d).1.recent_ips =
      (if d.settings.ip_limit ≤ d.recent_ips.length
       then removeFirstMin IpHistoryItem.timestamp d.recent_ips
       else d.recent_ips) ++ [⟨ip, now, 1⟩] ∧
      (mergeIp now ip d).2 = [AppEvent.ipDetected ip] := by
  have hnotany : ¬ d.recent_ips.any (fun e => e.ip == ip) = true := by
    intro hc
    rcases List.any_eq_true.mp hc with ⟨e, he, hbe⟩
    exact h ⟨e, he, by simpa using hbe⟩
  unfold mergeIp
  rw [if_neg hnotany]
  exact ⟨rfl, rfl⟩

theorem mergeIp_map_ip_existing {now : Nat} {ip : String} {d : AppData}
    (h : ∃ e, e ∈ d.recent_ips ∧ e.ip = ip) :
    (mergeIp now ip d).1.recent_ips.map IpHistoryItem.ip =
      d.recent_ips.map IpHistoryItem.ip := by
  rw [(mergeIp_existing h).1, List.map_map]
  apply List.map_congr_left
  intro e _
  by_cases he : (e.ip == ip) = true <;> simp [Function.comp, he]

theorem mergeIp_nodup (now : Nat) (ip : String) (d : AppData)
    (hnd : NoDupIp d) : NoDupIp (mergeIp now ip d).1 := by
  show ((mergeIp now ip d).1.recent_ips.map IpHistoryItem.ip).Nodup
  by_cases hex : ∃ e, e ∈ d.recent_ips ∧ e.ip = ip
  · rw [mergeIp_map_ip_existing hex]
    exact hnd
  · rw [(mergeIp_fresh hex).1]
    have hsub : (if d.settings.ip_limit ≤ d.recent_ips.length
        then removeFirstMin IpHistoryItem.timestamp d.recent_ips
        else d.recent_ips).Sublist d.recent_ips := by
      split
      · exact List.eraseP_sublist d.recent_ips
      · exact List.Sublist.refl d.recent_ips
    have hndk := (hsub.map IpHistoryItem.ip).nodup hnd
    rw [List.map_append]
    apply List.Nodup.append hndk (List.nodup_singleton ip)
    intro a ha hb
    have hae : a = ip := by simpa using hb
    subst hae
    rcases List.mem_map.mp ha with ⟨e, he, hei⟩
    exact hex ⟨e, hsub.subset he, hei⟩

/-- C5: merging an extracted IP into a duplicate-free recent_ips collection
either refreshes the unique matching entry in place (count incremented by 1,
timestamp set to now, length unchanged, all other entries untouched), or —
for a fresh ip — appends a new entry, evicting the oldest-timestamp existing
entry when the collection was full; uniqueness of ip strings is preserved. -/
theorem C5_ip_merge (d : AppData) (now : Nat) (ip : String)
    (hnd : NoDupIp d) :
    ((∃ e, e ∈ d.recent_ips ∧ e.ip = ip) →
        (mergeIp now ip d).1.recent_ips.length = d.recent_ips.length ∧
        (∃ e, e ∈ d.recent_ips ∧ e.ip = ip ∧
          (⟨ip, now, e.count + 1⟩ : IpHistoryItem) ∈
            (mergeIp now ip d).1.recent_ips) ∧
        (∀ e, e ∈ d.recent_ips → e.ip ≠ ip →
          e ∈ (mergeIp now ip d).1.recent_ips))
    ∧ ((¬ ∃ e, e ∈ d.recent_ips ∧ e.ip = ip) →
        ((d.recent_ips.length < d.settings.ip_limit →
            (mergeIp now ip d).1.recent_ips =
              d.recent_ips ++ [⟨ip, now, 1⟩]) ∧
         (d.recent_ips.length = d.settings.ip_limit →
          0 < d.settings.ip_limit →
            ∃ e, e ∈ d.recent_ips ∧
              (∀ x ∈ d.recent_ips, e.timestamp ≤ x.timestamp) ∧
              List.Perm (d.recent_ips ++ [⟨ip, now, 1⟩])
                (e :: (mergeIp now ip d).1.recent_ips) ∧
              (mergeIp now ip d).1.recent_ips.length = d.settings.ip_limit)))
    ∧ NoDupIp (mergeIp now ip d).1 := by
  refine ⟨?_, ?_, mergeIp_nodup now ip d hnd⟩
  · rintro hex
    obtain ⟨hips, _⟩ := mergeIp_existing hex
    refine ⟨?_, ?_, ?_⟩
    · rw [hips, List.length_map]
    · rcases hex with ⟨e, he, hei⟩
      refine ⟨e, he, hei, ?_⟩
      rw [hips]
      have : (⟨ip, now, e.count + 1⟩ : IpHistoryItem) =
          (fun e => if e.ip == ip
            then { e with count := e.count + 1, timestamp := now }
            else e) e := by
        have hbe : (e.ip == ip) = true := by simpa using hei
        simp [hbe]
        exact hei.symm
      rw [this]
      exact List.mem_map_of_mem _ he
    · intro e he hne
      rw [hips]
      have : e = (fun e => if e.ip == ip
          then { e with count := e.count + 1, timestamp := now }
          else e) e := by
        have hbe : (e.ip == ip) = false := by simpa using hne
        simp [hbe]
      rw [this]
      exact List.mem_map_of_mem _ he
  · intro hex
    obtain ⟨hips, _⟩ := mergeIp_fresh hex
    constructor
    · intro hlt
      rw [hips, if_neg (by omega)]
    · intro hfull hpos
      have hcap : d.settings.ip_limit ≤ d.recent_ips.length :=
        Nat.le_of_eq hfull.symm
      have hne : d.recent_ips ≠ [] := by
        intro h0
        rw [h0] at hfull
        simp at hfull
        omega
      obtain ⟨e, hmem, hmin, hperm⟩ :=
        removeFirstMin_spec (k := IpHistoryItem.timestamp) hne
      rw [hips, if_pos hcap]
      refine ⟨e, hmem, hmin, ?_, ?_⟩
      · have h1 : List.Perm (d.recent_ips ++ [⟨ip, now, 1⟩])
            ((e :: removeFirstMin IpHistoryItem.timestamp d.recent_ips) ++
              [⟨ip, now, 1⟩]) :=
          hperm.append_right _
        simpa using h1
      · have := removeFirstMin_length (k := IpHistoryItem.timestamp) hne
        simp only [List.length_append, List.length_singleton]
        omega

/-- Witness for C5 at concrete states covering both branches. -/
theorem C5_ip_merge_witness :
    ((mergeIp 5 ("10.0.0.1")
        ((ingest 0 ("10.0.0.1") emptyAppData).1)).1.recent_ips.length =
      (ingest 0 ("10.0.0.1") emptyAppData).1.recent_ips.length) ∧
    ((mergeIp 6 ("10.0.0.2")
        ((ingest 0 ("10.0.0.1") emptyAppData).1)).1.recent_ips =
      (ingest 0 ("10.0.0.1") emptyAppData).1.recent_ips ++
        [⟨("10.0.0.2"), 6, 1⟩]) := by
  have h1 := C5_ip_merge ((ingest 0 ("10.0.0.1") emptyAppData).1) 5
    ("10.0.0.1") (by decide)
  have h2 := C5_ip_merge ((ingest 0 ("10.0.0.1") emptyAppData).1) 6
    ("10.0.0.2") (by decide)
  refine ⟨(h1.1 ⟨⟨("10.0.0.1"), 0, 1⟩, by decide, by decide⟩).1, ?_⟩
  exact (h2.2.1 (by decide)).1 (by decide)

/-- C6: the startup load path parses the primary file first; on its failure
it parses the backup; when both fail it yields the fresh empty AppData and
persists it immediately.  Being a total function of the two file states, it
always produces a well-formed AppData — the empty fallback satisfies all the
data-model invariants. -/
theorem C6_load_recovery :
    ∀ p b : FileState,
      (∀ d, parseFile p = some d → loadAppData p b = (d, false)) ∧
      (parseFile p = none →
        ∀ d, parseFile b = some d → loadAppData p b = (d, false)) ∧
      (parseFile p = none → parseFile b = none →
        loadAppData p b = (emptyAppData, true) ∧
          CapacityInv emptyAppData ∧ NoDupContent emptyAppData ∧
          NoDupIp emptyAppData) := by
  intro p b
  refine ⟨?_, ?_, ?_⟩
  · intro d hd
    unfold loadAppData
    rw [hd]
  · intro hp d hd
    unfold loadAppData
    rw [hp, hd]
  · intro hp hb
    unfold loadAppData
    rw [hp, hb]
    exact ⟨rfl, by decide, by decide, by decide⟩

/-- Witness for C6 with both files corrupt. -/
theorem C6_load_recovery_witness :
    loadAppData FileState.corrupt FileState.corrupt = (emptyAppData, true) ∧
      CapacityInv emptyAppData ∧ NoDupContent emptyAppData ∧
      NoDupIp emptyAppData :=
  (C6_load_recovery FileState.corrupt FileState.corrupt).2.2 rfl rfl

/-- C7: the ip-detected event is emitted by a merge step exactly when the ip
is not yet present in recent_ips (first sight); the ip is present afterwards;
and a merge step emits either nothing or exactly the one first-sight event. -/
theorem C7_first_seen_event (d : AppData) (now : Nat) (ip : String) :
    (AppEvent.ipDetected ip ∈ (mergeIp now ip d).2 ↔
      ¬ ip ∈ d.recent_ips.map IpHistoryItem.ip)
    ∧ ip ∈ (mergeIp now ip d).1.recent_ips.map IpHistoryItem.ip
    ∧ ((mergeIp now ip d).2 = [] ∨
        (mergeIp now ip d).2 = [AppEvent.ipDetected ip]) := by
  have hmm : ip ∈ d.recent_ips.map IpHistoryItem.ip ↔
      ∃ e, e ∈ d.recent_ips ∧ e.ip = ip := by
    simp [List.mem_map]
  by_cases hex : ∃ e, e ∈ d.recent_ips ∧ e.ip = ip
  · obtain ⟨hips, hev⟩ := mergeIp_existing hex
    refine ⟨?_, ?_, Or.inl hev⟩
    · rw [hev]
      simp [hmm.mpr hex]
    · rw [mergeIp_map_ip_existing hex]
      exact hmm.mpr hex
  · obtain ⟨hips, hev⟩ := mergeIp_fresh hex
    refine ⟨?_, ?_, Or.inr hev⟩
    · rw [hev]
      simp [hmm, hex]
    · rw [hips, List.map_append]
      exact List.mem_append_right _ (by simp)

/-- Witness for C7 at a first sighting on the empty store. -/
theorem C7_first_seen_event_witness :
    AppEvent.ipDetected ("10.0.0.1") ∈ (mergeIp 0 ("10.0.0.1") emptyAppData).2 :=
  (C7_first_seen_event emptyAppData 0 ("10.0.0.1")).1.mpr (by decide)

/-- C8: when the bookmark name or content trims to the empty string, the
frontend saveBookmark handler produces the rejection alert (a descriptive
failure) and invokes no backend command, so the state — bookmarks and all of
AppData — is unchanged. -/
theorem C8_bookmark_validation (editId : Option Nat)
    (nameF contentF tagsF : String) (d : AppData) (now : Nat)
    (h : jsTrim nameF = "" ∨ jsTrim contentF = "") :
    saveBookmark editId nameF contentF tagsF =
      SaveResult.rejected ("名前と内容は必須です") ∧
    applySave now (saveBookmark editId nameF contentF tagsF) d = d := by
  have hcond : (jsTrim nameF == "" || jsTrim contentF == "") = true := by
    rcases h with h | h <;> simp [h]
  have hs : saveBookmark editId nameF contentF tagsF =
      SaveResult.rejected ("名前と内容は必須です") := by
    unfold saveBookmark
    rw [if_pos hcond]
  refine ⟨hs, ?_⟩
  rw [hs]
  rfl

/-- Witness for C8 on a whitespace-only name. -/
theorem C8_bookmark_validation_witness :
    saveBookmark none ("   ") ("x") ("") =
      SaveResult.rejected ("名前と内容は必須です") ∧
    applySave 0 (saveBookmark none ("   ") ("x") ("")) emptyAppData =
      emptyAppData :=
  C8_bookmark_validation none ("   ") ("x") ("") emptyAppData 0
    (Or.inl (by decide))

theorem head_dropWhile_not {p : α → Bool} :
    ∀ (l : List α) {c : α}, (l.dropWhile p).head? = some c → p c = false := by
  intro l
  induction l with
  | nil => intro c h; simp [List.dropWhile] at h
  | cons a t ih =>
      intro c h
      by_cases hpa : p a = true
      · rw [List.dropWhile_cons_of_pos hpa] at h
        exact ih h
      · rw [List.dropWhile_cons_of_neg hpa] at h
        have hac : a = c := by simpa using h
        subst hac
        exact Bool.eq_false_iff.mpr hpa

theorem getLast_dropWhile_eq {p : α → Bool} :
    ∀ (l : List α), l.dropWhile p ≠ [] →
      (l.dropWhile p).getLast? = l.getLast? := by
  intro l
  induction l with
  | nil => intro h; simp [List.dropWhile] at h
  | cons a t ih =>
      intro h
      by_cases hpa : p a = true
      · rw [List.dropWhile_cons_of_pos hpa] at h ⊢
        have htne : t ≠ [] := by
          intro h0
          rw [h0] at h
          simp [List.dropWhile] at h
        rw [ih h]
        cases t with
        | nil => exact absurd rfl htne
        | cons b u => simp
      · rw [List.dropWhile_cons_of_neg hpa]

theorem trimChars_getLast (cs : List Char) {c : Char}
    (h : (trimChars cs).getLast? = some c) : jsWhitespace c = false := by
  unfold trimChars at h
  rw [List.getLast?_reverse] at h
  exact head_dropWhile_not _ h

theorem trimChars_head (cs : List Char) {c : Char}
    (h : (trimChars cs).head? = some c) : jsWhitespace c = false := by
  unfold trimChars at h
  rw [List.head?_reverse] at h
  have hne : ((cs.dropWhile jsWhitespace).reverse.dropWhile jsWhitespace) ≠ [] := by
    intro h0
    rw [h0] at h
    simp at h
  rw [getLast_dropWhile_eq _ hne, List.getLast?_reverse] at h
  exact head_dropWhile_not _ h

theorem trimChars_noEdgeWs (cs : List Char) : noEdgeWs (trimChars cs) = true := by
  unfold noEdgeWs
  rw [Bool.and_eq_true]
  constructor
  · cases hh : (trimChars cs).head? with
    | none => rfl
    | some c => simpa [Option.all] using trimChars_head cs hh
  · cases hh : (trimChars cs).getLast? with
    | none => rfl
    | some c => simpa [Option.all] using trimChars_getLast cs hh

/-- C10: every tag the frontend passes to add_bookmark or update_bookmark is
nonempty and carries no leading or trailing whitespace; the empty tags field
and fields of only commas and spaces produce the empty tag list. -/
theorem C10_tag_normalization (s t : String) (ht : t ∈ parseTags s) :
    (t ≠ ("") ∧ noEdgeWs t.data = true) ∧
    parseTags ("") = [] ∧ parseTags (" , ,, ") = [] := by
  refine ⟨?_, by decide, by decide⟩
  rcases List.mem_map.mp ht with ⟨u, hu, rfl⟩
  have humem := List.mem_filter.mp hu
  have hune : u ≠ [] := by
    have := humem.2
    simpa using this
  rcases List.mem_map.mp humem.1 with ⟨g, _, rfl⟩
  constructor
  · intro he
    apply hune
    have := congrArg String.data he
    simpa using this
  · exact trimChars_noEdgeWs g

/-- Witness for C10 at a concrete tags field. -/
theorem C10_tag_normalization_witness :
    ((("a") ≠ ("") ∧ noEdgeWs (("a")).data = true) ∧
      parseTags ("") = [] ∧ parseTags (" , ,, ") = []) :=
  C10_tag_normalization (" a, b ") ("a") (by decide)

theorem replaceChar_append (c : Char) (r : List Char) :
    ∀ (a b : List Char),
      replaceChar c r (a ++ b) = replaceChar c r a ++ replaceChar c r b := by
  intro a b
  induction a with
  | nil => rfl
  | cons x xs ih =>
      by_cases h : (x == c) = true <;>
        simp [replaceChar, h, ih, List.append_assoc]

theorem escapeHtmlChars_append (a b : List Char) :
    escapeHtmlChars (a ++ b) = escapeHtmlChars a ++ escapeHtmlChars b := by
  simp [escapeHtmlChars, replaceChar_append]

theorem escapeHtmlChars_single (c : Char) :
    escapeHtmlChars [c] = escChar c := by
  by_cases h1 : c = '&'
  · subst h1; decide
  by_cases h2 : c = '<'
  · subst h2; decide
  by_cases h3 : c = '>'
  · subst h3; decide
  by_cases h4 : c = quoteChar
  · subst h4; decide
  by_cases h5 : c = aposChar
  · subst h5; decide
  simp [escapeHtmlChars, replaceChar, escChar, h1, h2, h3, h4, h5]

theorem escapeHtmlChars_eq_escList :
    ∀ cs : List Char, escapeHtmlChars cs = escList cs := by
  intro cs
  induction cs with
  | nil => rfl
  | cons c cs ih =>
      have hsplit : c :: cs = [c] ++ cs := rfl
      rw [hsplit, escapeHtmlChars_append, ih, escapeHtmlChars_single]
      rfl

theorem unescape_amp (t : List Char) :
    unescapeHtml (ampEnt ++ t) = '&' :: unescapeHtml t := by
  show unescapeHtml ('&' :: 'a' :: 'm' :: 'p' :: ';' :: t) = '&' :: unescapeHtml t
  rw [unescapeHtml]
  simp [List.isPrefixOf]

theorem unescape_lt (t : List Char) :
    unescapeHtml (ltEnt ++ t) = '<' :: unescapeHtml t := by
  show unescapeHtml ('&' :: 'l' :: 't' :: ';' :: t) = '<' :: unescapeHtml t
  rw [unescapeHtml]
  simp [List.isPrefixOf]

theorem unescape_gt (t : List Char) :
    unescapeHtml (gtEnt ++ t) = '>' :: unescapeHtml t := by
  show unescapeHtml ('&' :: 'g' :: 't' :: ';' :: t) = '>' :: unescapeHtml t
  rw [unescapeHtml]
  simp [List.isPrefixOf]

theorem unescape_quot (t : List Char) :
    unescapeHtml (quotEnt ++ t) = quoteChar :: unescapeHtml t := by
  show unescapeHtml ('&' :: 'q' :: 'u' :: 'o' :: 't' :: ';' :: t) =
    quoteChar :: unescapeHtml t
  rw [unescapeHtml]
  simp [List.isPrefixOf]

theorem unescape_apos (t : List Char) :
    unescapeHtml (aposEnt ++ t) = aposChar :: unescapeHtml t := by
  show unescapeHtml ('&' :: '#' :: '3' :: '9' :: ';' :: t) =
    aposChar :: unescapeHtml t
  rw [unescapeHtml]
  simp [List.isPrefixOf]

theorem unescape_plain (c : Char) (t : List Char) (h : ¬ c = '&') :
    unescapeHtml (c :: t) = c :: unescapeHtml t := by
  rw [unescapeHtml]
  rw [if_neg h]

theorem ampOk_amp (t : List Char) : ampOk (ampEnt ++ t) = ampOk t := by
  show ampOk ('&' :: 'a' :: 'm' :: 'p' :: ';' :: t) = ampOk t
  rw [ampOk]
  simp [List.isPrefixOf]

theorem ampOk_lt (t : List Char) : ampOk (ltEnt ++ t) = ampOk t := by
  show ampOk ('&' :: 'l' :: 't' :: ';' :: t) = ampOk t
  rw [ampOk]
  simp [List.isPrefixOf]

theorem ampOk_gt (t : List Char) : ampOk (gtEnt ++ t) = ampOk t := by
  show ampOk ('&' :: 'g' :: 't' :: ';' :: t) = ampOk t
  rw [ampOk]
  simp [List.isPrefixOf]

theorem ampOk_quot (t : List Char) : ampOk (quotEnt ++ t) = ampOk t := by
  show ampOk ('&' :: 'q' :: 'u' :: 'o' :: 't' :: ';' :: t) = ampOk t
  rw [ampOk]
  simp [List.isPrefixOf]

theorem ampOk_apos (t : List Char) : ampOk (aposEnt ++ t) = ampOk t := by
  show ampOk ('&' :: '#' :: '3' :: '9' :: ';' :: t) = ampOk t
  rw [ampOk]
  simp [List.isPrefixOf]

theorem ampOk_plain (c : Char) (t : List Char) (h : ¬ c = '&') :
    ampOk (c :: t) = ampOk t := by
  rw [ampOk]
  rw [if_neg h]

theorem unescape_escChar (c : Char) (t : List Char) :
    unescapeHtml (escChar c ++ t) = c :: unescapeHtml t := by
  by_cases h1 : c = '&'
  · subst h1
    rw [show escChar '&' = ampEnt from rfl]
    exact unescape_amp t
  by_cases h2 : c = '<'
  · subst h2
    rw [show escChar '<' = ltEnt from rfl]
    exact unescape_lt t
  by_cases h3 : c = '>'
  · subst h3
    rw [show escChar '>' = gtEnt from rfl]
    exact unescape_gt t
  by_cases h4 : c = quoteChar
  · subst h4
    rw [show escChar quoteChar = quotEnt by simp [escChar, quoteChar, aposChar]]
    exact unescape_quot t
  by_cases h5 : c = aposChar
  · subst h5
    rw [show escChar aposChar = aposEnt by simp [escChar, quoteChar, aposChar]]
    exact unescape_apos t
  rw [show escChar c = [c] by simp [escChar, h1, h2, h3, h4, h5]]
  exact unescape_plain c t h1

theorem ampOk_escChar (c : Char) (t : List Char) :
    ampOk (escChar c ++ t) = ampOk t := by
  by_cases h1 : c = '&'
  · subst h1
    rw [show escChar '&' = ampEnt from rfl]
    exact ampOk_amp t
  by_cases h2 : c = '<'
  · subst h2
    rw [show escChar '<' = ltEnt from rfl]
    exact ampOk_lt t
  by_cases h3 : c = '>'
  · subst h3
    rw [show escChar '>' = gtEnt from rfl]
    exact ampOk_gt t
  by_cases h4 : c = quoteChar
  · subst h4
    rw [show escChar quoteChar = quotEnt by simp [escChar, quoteChar, aposChar]]
    exact ampOk_quot t
  by_cases h5 : c = aposChar
  · subst h5
    rw [show escChar aposChar = aposEnt by simp [escChar, quoteChar, aposChar]]
    exact ampOk_apos t
  rw [show escChar c = [c] by simp [escChar, h1, h2, h3, h4, h5]]
  exact ampOk_plain c t h1

theorem unescape_escList : ∀ cs : List Char, unescapeHtml (escList cs) = cs := by
  intro cs
  induction cs with
  | nil =>
      show unescapeHtml [] = []
      rw [unescapeHtml.eq_def]
  | cons c cs ih =>
      show unescapeHtml (escChar c ++ escList cs) = c :: cs
      rw [unescape_escChar, ih]

theorem ampOk_escList : ∀ cs : List Char, ampOk (escList cs) = true := by
  intro cs
  induction cs with
  | nil =>
      show ampOk [] = true
      rw [ampOk.eq_def]
  | cons c cs ih =>
      show ampOk (escChar c ++ escList cs) = true
      rw [ampOk_escChar, ih]

theorem rawFree_escChar (c : Char) : rawFree (escChar c) = true := by
  by_cases h1 : c = '&'
  · subst h1; decide
  by_cases h2 : c = '<'
  · subst h2; decide
  by_cases h3 : c = '>'
  · subst h3; decide
  by_cases h4 : c = quoteChar
  · subst h4; decide
  by_cases h5 : c = aposChar
  · subst h5; decide
  rw [show escChar c = [c] by simp [escChar, h1, h2, h3, h4, h5]]
  simp [rawFree, h2, h3, h4, h5]

theorem rawFree_escList : ∀ cs : List Char, rawFree (escList cs) = true := by
  intro cs
  induction cs with
  | nil => rfl
  | cons c cs ih =>
      show rawFree (escChar c ++ escList cs) = true
      have h1 := rawFree_escChar c
      simp only [rawFree] at h1 ih ⊢
      rw [List.all_append, h1, ih]
      rfl

/-- C9: for every string, the escapeHtml output contains no raw angle
bracket or quote character, every ampersand in it starts one of the five
entities, and decoding those five entities recovers exactly the input;
every non-string input yields the empty string. -/
theorem C9_escape_html (s : String) :
    rawFree (escapeHtml (JsValue.str s)).data = true ∧
    ampOk (escapeHtml (JsValue.str s)).data = true ∧
    unescapeHtml (escapeHtml (JsValue.str s)).data = s.data ∧
    (∀ v : JsValue, (∀ u : String, v ≠ JsValue.str u) →
      escapeHtml v = ("")) := by
  have hdata : (escapeHtml (JsValue.str s)).data = escList s.data := by
    show (String.mk (escapeHtmlChars s.data)).data = escList s.data
    show escapeHtmlChars s.data = escList s.data
    exact escapeHtmlChars_eq_escList s.data
  refine ⟨?_, ?_, ?_, ?_⟩
  · rw [hdata]
    exact rawFree_escList s.data
  · rw [hdata]
    exact ampOk_escList s.data
  · rw [hdata]
    exact unescape_escList s.data
  · intro v hv
    cases v with
    | str u => exact absurd rfl (hv u)
    | num n => rfl
    | boolean b => rfl
    | nullValue => rfl
    | undef => rfl

/-- Witness for C9 at a concrete string and a concrete non-string value. -/
theorem C9_escape_html_witness :
    unescapeHtml (escapeHtml (JsValue.str ("a<b&amp;c"))).data =
      ("a<b&amp;c").data ∧
    escapeHtml JsValue.nullValue = ("") :=
  ⟨(C9_escape_html ("a<b&amp;c")).2.2.1,
   (C9_escape_html ("a<b&amp;c")).2.2.2 JsValue.nullValue
     (fun _ h => JsValue.noConfusion h)⟩
